import Mathlib

/-!
Verification of the dhkam package (blinded Diffie-Hellman key agreement over
RFC 3526 Group 14, with an RFC 2631 style key-derivation layer).

The Go source (dhkam.go) is shallowly embedded below.  Arbitrary-precision
integers (math/big) become Nat; byte slices become List Nat with every entry
below 256; fallible Go functions return an explicit result type in which a
runtime panic (out-of-range slice index) is a distinguished outcome.
-/

set_option maxRecDepth 100000

namespace Dhkam

/-- Modelled from the spec: the package references process-wide constants
P and g defined in a constants file that is not part of src/.  Per the spec
(sections 1-3) the group is the RFC 3526 Group 14 2048-bit MODP group, whose
prime this literal transcribes, with small generator g = 2. -/
def P : Nat :=
0xFFFFFFFFFFFFFFFFC90FDAA22168C234C4C6628B80DC1CD129024E088A67CC74020BBEA63B139B22514A08798E3404DDEF9519B3CD3A431B302B0A6DF25F14374FE1356D6D51C245E485B576625E7EC6F44C42E9A637ED6B0BFF5CB6F406B7EDEE386BFB5A899FA5AE9F24117C4B1FE649286651ECE45B3DC2007CB8A163BF0598DA48361C55D39A69163FA8FD24CF5F83655D23DCA3AD961C62F356208552BB9ED529077096966D670C354E4ABC9804F1746C08CA18217C32905E462E36CE3BE39E772C180E86039B2783A2EC07A28FB5C55DF06F4C52C9DE2BCBF6955817183995497CEA956AE515D2261898FA051015728E5A8AACAA68FFFFFFFFFFFFFFFF

/-- Modelled from the spec: the generator of RFC 3526 Group 14 is 2. -/
def g : Nat := 2

/-- The error values declared at the top of dhkam.go. -/
inductive DhkamErr where
  | blindingFailed
  | invalidKEKParams
  | invalidPrivateKey
  | invalidPublicKey
  | invalidSharedKey
deriving DecidableEq, Repr

/-- Outcome of running a Go function: a runtime panic (crash), an error
return, or a normal return. -/
inductive GoResult (α : Type) where
  | crash
  | err (e : DhkamErr)
  | ok (a : α)
deriving DecidableEq, Repr

/-- Fuel-driven binary modular exponentiation; computes a ^ x % p whenever
x < 2 ^ fuel.  This embeds the behaviour of big.Int.Exp for nonnegative
exponents and positive modulus. -/
def powModF (f : Nat) : Nat → Nat → Nat → Nat :=
  @Nat.rec (fun _ => Nat → Nat → Nat → Nat)
    (fun _ _ p => 1 % p)
    (fun _ ih a x p =>
      if x = 0 then 1 % p
      else if x % 2 = 1 then ih (a * a % p) (x / 2) p * (a % p) % p
      else ih (a * a % p) (x / 2) p)
    f

/-- Modular exponentiation, total: the fuel x + 1 always suffices. -/
def modPow (a x p : Nat) : Nat := powModF (x + 1) a x p

/-- Fuel-driven bit length; agrees with big.Int.BitLen once the fuel covers
the number of bits. -/
def bitLenAux (f : Nat) : Nat → Nat :=
  @Nat.rec (fun _ => Nat → Nat)
    (fun _ => 0)
    (fun _ ih n => if n = 0 then 0 else ih (n / 2) + 1)
    f

/-- Byte-stride bit length: each recursion step strips eight bits, and a
final value below 256 is finished bit by bit.  Agrees with big.Int.BitLen
once the fuel covers the number of bytes. -/
def bitLenByte (f : Nat) : Nat → Nat :=
  @Nat.rec (fun _ => Nat → Nat)
    (fun _ => 0)
    (fun _ ih n => if n < 256 then bitLenAux 8 n else ih (n / 256) + 8)
    f

/-- Bit length of a Nat, embedding big.Int.BitLen: the fuel n + 1 always
covers all bytes of n. -/
def bitLen (n : Nat) : Nat := bitLenByte (n + 1) n

/-- Fuel-driven big-endian minimal byte encoding of a Nat, mirroring
big.Int.Bytes: empty for zero, no leading zero byte otherwise. -/
def bytesAux (f : Nat) : Nat → List Nat :=
  @Nat.rec (fun _ => Nat → List Nat)
    (fun _ => [])
    (fun _ ih n => if n = 0 then [] else ih (n / 256) ++ [n % 256])
    f

/-- Big-endian minimal byte encoding of a Nat (big.Int.Bytes): the fuel
n + 1 always suffices. -/
def natToBytes (n : Nat) : List Nat := bytesAux (n + 1) n

/-- Big-endian byte-string decoding (big.Int.SetBytes). -/
def bytesToNat (l : List Nat) : Nat := l.foldl (fun acc b => acc * 256 + b) 0

/-- PublicKey.Valid from dhkam.go: the key passes iff its bit length does
not exceed the bit length of the modulus.  No other check is made. -/
def validPub (A : Nat) : Bool := if bitLen P < bitLen A then false else true

/-- ImportPublic from dhkam.go: parse big-endian bytes, then run Valid. -/
def importPublicM (inp : List Nat) : GoResult Nat :=
  if validPub (bytesToNat inp) then GoResult.ok (bytesToNat inp)
  else GoResult.err DhkamErr.invalidPublicKey

/-- A private key: the secret exponent X and the cached public element A. -/
structure PrivKey where
  X : Nat
  A : Nat
deriving DecidableEq, Repr

/-- ExportPrivate from dhkam.go: big-endian minimal bytes of X. -/
def exportPrivateM (prv : PrivKey) : List Nat :=
  match prv with
  | ⟨x, _⟩ => natToBytes x

/-- The value computed by blind in dhkam.go before its bit-length check:
with random draw r, form blinding = 2^256 + r, the complementary exponent
(2^258 + x) - blinding, raise a to each modulo P and multiply modulo P. -/
def blindVal (a x r : Nat) : Nat :=
  modPow a (2 ^ 256 + r) P * modPow a ((2 ^ 258 + x) - (2 ^ 256 + r)) P % P

/-- blind from dhkam.go: computes blindVal and fails with ErrBlindingFailed
when the result has more bits than the modulus (the random-source failure
branch is not reachable in this pure embedding; the draw r is passed in). -/
def blindGo (a x r : Nat) : GoResult Nat :=
  let y := blindVal a x r
  if bitLen P < bitLen y then GoResult.err DhkamErr.blindingFailed
  else GoResult.ok y

/-- generatePublicKey followed by the Valid check, as used by ImportPrivate
(generatePublic) in dhkam.go. -/
def generatePublicKeyM (x r : Nat) : GoResult Nat :=
  match blindGo g x r with
  | GoResult.crash => GoResult.crash
  | GoResult.err e => GoResult.err e
  | GoResult.ok A =>
    if validPub A then GoResult.ok A else GoResult.err DhkamErr.invalidPublicKey

/-- ImportPrivate from dhkam.go: parse the exponent bytes and regenerate
the public key with a fresh random draw r. -/
def importPrivateM (r : Nat) (inp : List Nat) : GoResult PrivKey :=
  match generatePublicKeyM (bytesToNat inp) r with
  | GoResult.crash => GoResult.crash
  | GoResult.err e => GoResult.err e
  | GoResult.ok A => GoResult.ok { X := bytesToNat inp, A := A }

/-- Go reslicing b[:n] for an Int bound n: defined when 0 ≤ n ≤ cap(b)
(for big.Int.Bytes the capacity equals the length), a panic otherwise. -/
def sliceTo (l : List Nat) (n : Int) : Option (List Nat) :=
  if 0 ≤ n ∧ n ≤ (l.length : Int) then some (l.take n.toNat) else none

/-- SharedKey from dhkam.go with the requested size as a Go int: validate
the peer key, blind with the private exponent, reslice the big-endian bytes
to the requested size (a panic when the bytes are shorter), and run the
final length check. -/
def sharedKeyI (x pubA r : Nat) (size : Int) : GoResult (List Nat) :=
  if validPub pubA then
    match blindGo pubA x r with
    | GoResult.crash => GoResult.crash
    | GoResult.err e => GoResult.err e
    | GoResult.ok skBig =>
      match sliceTo (natToBytes skBig) size with
      | none => GoResult.crash
      | some sk =>
        if (sk.length : Int) < size then GoResult.err DhkamErr.invalidSharedKey
        else GoResult.ok sk
  else GoResult.err DhkamErr.invalidPublicKey

/-- SharedKey at a nonnegative requested size. -/
def sharedKeyM (x pubA r size : Nat) : GoResult (List Nat) :=
  sharedKeyI x pubA r (size : Int)

/-- zeroPad from dhkam.go.  The slice lower bound start = outlen - inLen - 1
is a Go int; a negative value is an out-of-range slice index, i.e. a panic
(none).  Otherwise the output is outlen zero bytes with min(outlen - start,
len(in)) bytes of the input copied in at offset start. -/
def zeroPadGo (inp : List Nat) (outlen : Nat) : Option (List Nat) :=
  let inLen := min inp.length outlen
  let start : Int := (outlen : Int) - (inLen : Int) - 1
  if start < 0 then none
  else
    let s := start.toNat
    let copied := min (outlen - s) inp.length
    some (List.replicate s 0 ++ inp.take copied ++ List.replicate (outlen - s - copied) 0)

/-- The 4-byte counter held in KeySpecificInfo. -/
structure Counter where
  b0 : Nat
  b1 : Nat
  b2 : Nat
  b3 : Nat
deriving DecidableEq, Repr

/-- All four counter bytes are in byte range. -/
def counterValid (c : Counter) : Prop :=
  match c with
  | ⟨b0, b1, b2, b3⟩ => b0 < 256 ∧ b1 < 256 ∧ b2 < 256 ∧ b3 < 256

instance instDecCounterValid (c : Counter) : Decidable (counterValid c) :=
  match c with
  | ⟨b0, b1, b2, b3⟩ =>
    inferInstanceAs (Decidable (b0 < 256 ∧ b1 < 256 ∧ b2 < 256 ∧ b3 < 256))

/-- The counter read as a big-endian 32-bit integer. -/
def counterVal (c : Counter) : Nat :=
  match c with
  | ⟨b0, b1, b2, b3⟩ => ((b0 * 256 + b1) * 256 + b2) * 256 + b3

/-- The big-endian byte list stored in the counter field. -/
def counterBytes (c : Counter) : List Nat :=
  match c with
  | ⟨b0, b1, b2, b3⟩ => [b0, b1, b2, b3]

/-- incCounter from dhkam.go: byte-wise big-endian increment with carry,
each byte wrapping at 256 (Go byte overflow). -/
def incCounterM (c : Counter) : Counter :=
  match c with
  | ⟨b0, b1, b2, b3⟩ =>
    if (b3 + 1) % 256 ≠ 0 then ⟨b0, b1, b2, (b3 + 1) % 256⟩
    else if (b2 + 1) % 256 ≠ 0 then ⟨b0, b1, (b2 + 1) % 256, 0⟩
    else if (b1 + 1) % 256 ≠ 0 then ⟨b0, (b1 + 1) % 256, 0, 0⟩
    else ⟨(b0 + 1) % 256, 0, 0, 0⟩

/-- The data of a KEK as set up by InitializeKEK: padded shared secret,
algorithm identifier, optional party-A info, supplemental public info and
the mutable counter.  The injected hash is passed to CEK separately. -/
structure KEKState where
  zz : List Nat
  algo : List Nat
  ainfo : Option (List Nat)
  supp : List Nat
  counter : Counter
deriving DecidableEq, Repr

/-- KEK.KeyLen from dhkam.go: read the first four bytes of SuppPubInfo as a
big-endian uint32, returning 0 when fewer than four bytes are available. -/
def keyLenM (supp : List Nat) : Nat :=
  if supp.length < 4 then 0 else bytesToNat (supp.take 4)

/-- Modelled from the spec: marshalKEKParams delegates to encoding/asn1
(standard library, outside src/).  The spec treats it as an opaque
deterministic serializer of the full parameter set - algorithm identifier,
optional party-A info, supplemental public info and the current counter -
whose encodings are lossless; this model length-prefixes each field, which
is deterministic and injective field-by-field. -/
def marshalParamsM (algo : List Nat) (ainfo : Option (List Nat))
    (supp : List Nat) (c : Counter) : List Nat :=
  (algo.length :: algo)
    ++ (match ainfo with
        | none => [0]
        | some a => 1 :: a.length :: a)
    ++ (supp.length :: supp)
    ++ (counterBytes c).length :: counterBytes c

/-- The byte string hashed for every block of a CEK call on state s:
the padded shared secret followed by the serialized parameters. -/
def hashInput (s : KEKState) : List Nat :=
  s.zz ++ marshalParamsM s.algo s.ainfo s.supp s.counter

/-- The KDF loop of CEK in dhkam.go, one recursion step per hash block:
every block appends the digest of the same input (the otherInfo bytes were
serialized before the loop) and increments the counter once. -/
def cekLoop (digest : List Nat → List Nat) (input : List Nat) :
    Nat → Counter → List Nat × Counter
  | 0, c => ([], c)
  | b + 1, c =>
    let rest := cekLoop digest input b (incCounterM c)
    (digest input ++ rest.1, rest.2)

/-- CEK from dhkam.go.  The key-length field is re-parsed from SuppPubInfo
(error when 0), otherInfo is serialized once, then the loop runs
ceil(keylen / hashSize) blocks over the buffer and the result is truncated
to keylen.  A zero hash size would loop forever in Go and is modelled as a
stuck marker; the digest is assumed to honour the hash.Hash contract of
returning exactly hSize bytes (theorems state this hypothesis). -/
def cekM (hSize : Nat) (digest : List Nat → List Nat) (s : KEKState) :
    GoResult (List Nat × KEKState) :=
  let kl := keyLenM s.supp
  if kl = 0 then GoResult.err DhkamErr.invalidKEKParams
  else if hSize = 0 then GoResult.crash
  else
    let res := cekLoop digest (hashInput s) ((kl + hSize - 1) / hSize) s.counter
    GoResult.ok (res.1.take kl, { s with counter := res.2 })

/-- Go int32 reinterpretation of a 32-bit unsigned value, as produced by
binary.Read of an int32 in InitializeKEK. -/
def toInt32 (n : Nat) : Int :=
  if n < 2 ^ 31 then (n : Int) else (n : Int) - 2 ^ 32

/-- InitializeKEK from dhkam.go: reject party-A info that is not exactly 64
bytes (nil result), parse the key length as a big-endian int32 from
SuppPubInfo (nil on a short buffer), obtain the shared secret of that
length (nil on error, propagating a panic), zero-pad it to the byte width
of the modulus (a panic when zeroPad panics) and assemble the KEK with
counter 1. -/
def initializeKEKBody (x pubA : Nat) (algo : List Nat) (ainfo : Option (List Nat))
    (supp : List Nat) (r : Nat) : GoResult (Option KEKState) :=
  if supp.length < 4 then GoResult.ok none
  else
    match sharedKeyI x pubA r (toInt32 (bytesToNat (supp.take 4))) with
    | GoResult.crash => GoResult.crash
    | GoResult.err _ => GoResult.ok none
    | GoResult.ok zz =>
      match zeroPadGo zz ((bitLen P + 7) / 8) with
      | none => GoResult.crash
      | some zzp =>
        GoResult.ok (some { zz := zzp, algo := algo, ainfo := ainfo,
                            supp := supp, counter := ⟨0, 0, 0, 1⟩ })

def initializeKEKM (x pubA : Nat) (algo : List Nat) (ainfo : Option (List Nat))
    (supp : List Nat) (r : Nat) : GoResult (Option KEKState) :=
  match ainfo with
  | some a =>
    if a.length ≠ 64 then GoResult.ok none
    else initializeKEKBody x pubA algo ainfo supp r
  | none => initializeKEKBody x pubA algo ainfo supp r

/-- The key bytes of a successful CEK result, or the empty list. -/
def keyOf (r : GoResult (List Nat × KEKState)) : List Nat :=
  match r with
  | GoResult.ok p => p.1
  | _ => []

/-- The counter left in the KEK by a successful CEK result. -/
def counterOf (r : GoResult (List Nat × KEKState)) : Option Counter :=
  match r with
  | GoResult.ok p => some p.2.counter
  | _ => none

/-- Whether a Go result is a normal return. -/
def isOk {α : Type} (r : GoResult α) : Bool :=
  match r with
  | GoResult.ok _ => true
  | _ => false

/-- A concrete KEK fixture: 96-byte target key length, counter at its
initial value 1. -/
def exampleKEK96 : KEKState :=
  { zz := List.replicate 8 7, algo := [1], ainfo := none,
    supp := [0, 0, 0, 96], counter := ⟨0, 0, 0, 1⟩ }

/-- A concrete 64-byte digest function (stands in for SHA-512); it depends
on its input only through the input bytes it is given. -/
def exampleDigest64 (m : List Nat) : List Nat :=
  (List.range 64).map (fun j => (m.length + j) % 256)

/-- A concrete KEK fixture with a 2-byte target key length. -/
def exampleKEK2 : KEKState :=
  { zz := [5], algo := [1], ainfo := none,
    supp := [0, 0, 0, 2], counter := ⟨0, 0, 0, 1⟩ }

/-- A concrete 1-byte digest function. -/
def exampleDigest1 (m : List Nat) : List Nat := [m.length % 256]

/-- A concrete 4-byte digest function that reads off the last four bytes of
its input (for inputs of length at least four); on CEK hash inputs those
are exactly the serialized counter bytes. -/
def exampleDigest4 (m : List Nat) : List Nat :=
  (List.replicate 4 0 ++ m).drop m.length

/-- A concrete KEK fixture with a 4-byte target key length. -/
def exampleKEK4 : KEKState :=
  { zz := [9], algo := [1], ainfo := none,
    supp := [0, 0, 0, 4], counter := ⟨0, 0, 0, 1⟩ }

theorem powModF_zero (a x p : Nat) : powModF 0 a x p = 1 % p := rfl

theorem powModF_succ (f a x p : Nat) :
    powModF (f + 1) a x p =
      if x = 0 then 1 % p
      else if x % 2 = 1 then powModF f (a * a % p) (x / 2) p * (a % p) % p
      else powModF f (a * a % p) (x / 2) p := rfl

theorem powModF_eq (f : Nat) : ∀ a x p, x < 2 ^ f → powModF f a x p = a ^ x % p := by
  induction f with
  | zero =>
    intro a x p hx
    have hx0 : x = 0 := Nat.lt_one_iff.mp (by simpa using hx)
    subst hx0
    simp [powModF_zero]
  | succ f ih =>
    intro a x p hx
    by_cases h0 : x = 0
    · subst h0; simp [powModF_succ]
    · have hdiv : x / 2 < 2 ^ f := by
        have h2 : (0:Nat) < 2 := by decide
        rw [Nat.div_lt_iff_lt_mul h2]
        calc x < 2 ^ (f + 1) := hx
        _ = 2 ^ f * 2 := by rw [Nat.pow_succ]
      have hr : powModF f (a * a % p) (x / 2) p = (a * a) ^ (x / 2) % p := by
        rw [ih (a * a % p) (x / 2) p hdiv, ← Nat.pow_mod]
      have hsq : (a * a) ^ (x / 2) = a ^ (2 * (x / 2)) := by
        rw [Nat.two_mul, Nat.pow_add]
        exact Nat.mul_pow a a (x / 2)
      rcases Nat.even_or_odd x with he | ho
      · have hx2ne : ¬ (x % 2 = 1) := by
          have := Nat.even_iff.mp he; omega
        have hxeq : 2 * (x / 2) = x := by
          have := Nat.even_iff.mp he; omega
        rw [powModF_succ, if_neg h0, if_neg hx2ne, hr, hsq, hxeq]
      · have hx2 : x % 2 = 1 := Nat.odd_iff.mp ho
        have hxeq : 2 * (x / 2) + 1 = x := by omega
        rw [powModF_succ, if_neg h0, if_pos hx2, hr, hsq]
        rw [← Nat.mul_mod, ← Nat.pow_succ, Nat.succ_eq_add_one, hxeq]

theorem modPow_eq (a x p : Nat) : modPow a x p = a ^ x % p := by
  have h : x < 2 ^ (x + 1) := by
    calc x < 2 ^ x := Nat.lt_two_pow x
    _ ≤ 2 ^ (x + 1) := Nat.pow_le_pow_right (by decide) (Nat.le_succ x)
  exact powModF_eq (x + 1) a x p h

theorem bitLenAux_zero (n : Nat) : bitLenAux 0 n = 0 := rfl

theorem bitLenAux_succ (f n : Nat) :
    bitLenAux (f + 1) n = if n = 0 then 0 else bitLenAux f (n / 2) + 1 := rfl

theorem bitLenByte_zero (n : Nat) : bitLenByte 0 n = 0 := rfl

theorem bitLenByte_succ (f n : Nat) :
    bitLenByte (f + 1) n =
      if n < 256 then bitLenAux 8 n else bitLenByte f (n / 256) + 8 := rfl

theorem bitLenAux_le_iff (f : Nat) :
    ∀ n k, n < 2 ^ f → (bitLenAux f n ≤ k ↔ n < 2 ^ k) := by
  induction f with
  | zero =>
    intro n k hn
    have hn0 : n = 0 := Nat.lt_one_iff.mp (by simpa using hn)
    subst hn0
    simp [bitLenAux_zero, Nat.pos_pow_of_pos, Nat.pos_pow_of_pos k (by decide : 0 < 2)]
  | succ f ih =>
    intro n k hn
    by_cases h0 : n = 0
    · subst h0
      simp [bitLenAux_succ, Nat.pos_pow_of_pos k (by decide : 0 < 2)]
    · have hdiv : n / 2 < 2 ^ f := by
        have h2 : (0:Nat) < 2 := by decide
        rw [Nat.div_lt_iff_lt_mul h2]
        calc n < 2 ^ (f + 1) := hn
        _ = 2 ^ f * 2 := by rw [Nat.pow_succ]
      rw [bitLenAux_succ, if_neg h0]
      cases k with
      | zero =>
        constructor
        · intro h; omega
        · intro h
          exfalso
          have : n = 0 := Nat.lt_one_iff.mp (by simpa using h)
          exact h0 this
      | succ k =>
        rw [Nat.succ_le_succ_iff, ih (n / 2) k hdiv]
        have h2 : (0:Nat) < 2 := by decide
        rw [Nat.div_lt_iff_lt_mul h2, Nat.pow_succ]

theorem bitLenByte_le_iff (f : Nat) :
    ∀ n k, n < 256 ^ f → (bitLenByte f n ≤ k ↔ n < 2 ^ k) := by
  induction f with
  | zero =>
    intro n k hn
    have hn0 : n = 0 := Nat.lt_one_iff.mp (by simpa using hn)
    subst hn0
    simp [bitLenByte_zero, Nat.pos_pow_of_pos k (by decide : 0 < 2)]
  | succ f ih =>
    intro n k hn
    by_cases hsm : n < 256
    · rw [bitLenByte_succ, if_pos hsm]
      exact bitLenAux_le_iff 8 n k (by calc n < 256 := hsm
        _ = 2 ^ 8 := by decide)
    · rw [bitLenByte_succ, if_neg hsm]
      have hdiv : n / 256 < 256 ^ f := by
        have h2 : (0:Nat) < 256 := by decide
        rw [Nat.div_lt_iff_lt_mul h2]
        calc n < 256 ^ (f + 1) := hn
        _ = 256 ^ f * 256 := by rw [Nat.pow_succ]
      rcases Nat.lt_or_ge k 8 with hk | hk
      · constructor
        · intro h; omega
        · intro h
          exfalso
          have hlt : n < 256 := by
            calc n < 2 ^ k := h
            _ ≤ 2 ^ 7 := Nat.pow_le_pow_right (by decide) (by omega)
            _ < 256 := by decide
          exact hsm hlt
      · have hk8 : k - 8 + 8 = k := Nat.sub_add_cancel hk
        constructor
        · intro h
          have h1 : bitLenByte f (n / 256) ≤ k - 8 := by omega
          have h2 : n / 256 < 2 ^ (k - 8) := (ih (n / 256) (k - 8) hdiv).mp h1
          have h3 : n < 2 ^ (k - 8) * 256 := by
            have h256 : (0:Nat) < 256 := by decide
            exact (Nat.div_lt_iff_lt_mul h256).mp h2
          calc n < 2 ^ (k - 8) * 256 := h3
          _ = 2 ^ (k - 8) * 2 ^ 8 := by rfl
          _ = 2 ^ (k - 8 + 8) := (Nat.pow_add 2 (k - 8) 8).symm
          _ = 2 ^ k := by rw [hk8]
        · intro h
          have h3 : n < 2 ^ (k - 8) * 256 := by
            calc n < 2 ^ k := h
            _ = 2 ^ (k - 8 + 8) := by rw [hk8]
            _ = 2 ^ (k - 8) * 2 ^ 8 := Nat.pow_add 2 (k - 8) 8
            _ = 2 ^ (k - 8) * 256 := by rfl
          have h2 : n / 256 < 2 ^ (k - 8) := by
            have h256 : (0:Nat) < 256 := by decide
            exact (Nat.div_lt_iff_lt_mul h256).mpr h3
          have h1 : bitLenByte f (n / 256) ≤ k - 8 := (ih (n / 256) (k - 8) hdiv).mpr h2
          omega

theorem bitLen_le_iff (n k : Nat) : bitLen n ≤ k ↔ n < 2 ^ k := by
  have h : n < 256 ^ (n + 1) := by
    calc n < 2 ^ n := Nat.lt_two_pow n
    _ ≤ 256 ^ n := Nat.pow_le_pow_left (by decide) n
    _ ≤ 256 ^ (n + 1) := Nat.pow_le_pow_right (by decide) (Nat.le_succ n)
  exact bitLenByte_le_iff (n + 1) n k h

theorem bitLen_le_of_le {m n : Nat} (h : m ≤ n) : bitLen m ≤ bitLen n := by
  rw [bitLen_le_iff]
  calc m ≤ n := h
  _ < 2 ^ bitLen n := (bitLen_le_iff n (bitLen n)).mp (Nat.le_refl _)

theorem bytesAux_zero (n : Nat) : bytesAux 0 n = [] := rfl

theorem bytesAux_succ (f n : Nat) :
    bytesAux (f + 1) n = if n = 0 then [] else bytesAux f (n / 256) ++ [n % 256] := rfl

theorem bytesToNat_append_singleton (l : List Nat) (b : Nat) :
    bytesToNat (l ++ [b]) = bytesToNat l * 256 + b := by
  simp [bytesToNat, List.foldl_append]

theorem bytesToNat_bytesAux (f : Nat) :
    ∀ n, n < 256 ^ f → bytesToNat (bytesAux f n) = n := by
  induction f with
  | zero =>
    intro n hn
    have hn0 : n = 0 := Nat.lt_one_iff.mp (by simpa using hn)
    subst hn0
    simp [bytesAux_zero, bytesToNat]
  | succ f ih =>
    intro n hn
    by_cases h0 : n = 0
    · subst h0; simp [bytesAux_succ, bytesToNat]
    · have hdiv : n / 256 < 256 ^ f := by
        have h2 : (0:Nat) < 256 := by decide
        rw [Nat.div_lt_iff_lt_mul h2]
        calc n < 256 ^ (f + 1) := hn
        _ = 256 ^ f * 256 := by rw [Nat.pow_succ]
      rw [bytesAux_succ, if_neg h0, bytesToNat_append_singleton, ih (n / 256) hdiv]
      omega

theorem bytesToNat_natToBytes (n : Nat) : bytesToNat (natToBytes n) = n := by
  have h : n < 256 ^ (n + 1) := by
    calc n < 2 ^ n := Nat.lt_two_pow n
    _ ≤ 256 ^ n := Nat.pow_le_pow_left (by decide) n
    _ ≤ 256 ^ (n + 1) := Nat.pow_le_pow_right (by decide) (Nat.le_succ n)
  exact bytesToNat_bytesAux (n + 1) n h

theorem P_pos : 0 < P := by decide

theorem blindVal_lt (a x r : Nat) : blindVal a x r < P := by
  unfold blindVal
  exact Nat.mod_lt _ P_pos

theorem validPub_of_lt {A : Nat} (h : A < P) : validPub A = true := by
  unfold validPub
  have hb : bitLen A ≤ bitLen P := bitLen_le_of_le (Nat.le_of_lt h)
  rw [if_neg (by omega)]

theorem blindGo_eq (a x r : Nat) : blindGo a x r = GoResult.ok (blindVal a x r) := by
  unfold blindGo
  have hlt : blindVal a x r < P := blindVal_lt a x r
  have hb : bitLen (blindVal a x r) ≤ bitLen P := bitLen_le_of_le (Nat.le_of_lt hlt)
  rw [if_neg (by omega)]

theorem blindVal_eq_pow (a x r : Nat) (hr : r < 2 ^ 256) :
    blindVal a x r = a ^ (2 ^ 258 + x) % P := by
  have hle : 2 ^ 256 + r ≤ 2 ^ 258 + x := by
    calc 2 ^ 256 + r ≤ 2 ^ 256 + 2 ^ 256 := Nat.add_le_add_left (Nat.le_of_lt hr) _
    _ = 2 ^ 257 := ((Nat.two_mul (2 ^ 256)).symm.trans (@Nat.pow_succ' 2 256).symm)
    _ ≤ 2 ^ 258 := Nat.pow_le_pow_right (by decide) (by decide)
    _ ≤ 2 ^ 258 + x := Nat.le_add_right _ _
  unfold blindVal
  rw [modPow_eq, modPow_eq, ← Nat.mul_mod, ← Nat.pow_add, Nat.add_sub_cancel' hle]

theorem blindVal_blindVal (xo xi ro ri : Nat) (hro : ro < 2 ^ 256) (hri : ri < 2 ^ 256) :
    blindVal (blindVal g xi ri) xo ro = g ^ ((2 ^ 258 + xi) * (2 ^ 258 + xo)) % P := by
  rw [blindVal_eq_pow _ _ _ hro, blindVal_eq_pow _ _ _ hri, ← Nat.pow_mod, ← Nat.pow_mul]

theorem incCounterM_valid {c : Counter} (h : counterValid c) :
    counterValid (incCounterM c) := by
  rcases c with ⟨b0, b1, b2, b3⟩
  simp only [counterValid] at h
  simp only [incCounterM]
  split_ifs <;> simp only [counterValid] <;> omega

theorem counterVal_lt {c : Counter} (h : counterValid c) :
    counterVal c < 2 ^ 32 := by
  rcases c with ⟨b0, b1, b2, b3⟩
  simp only [counterValid] at h
  simp only [counterVal]
  rw [show (2:Nat) ^ 32 = 4294967296 from by norm_num]
  omega

theorem incCounterM_val {c : Counter} (h : counterValid c) :
    counterVal (incCounterM c) = (counterVal c + 1) % 2 ^ 32 := by
  rcases c with ⟨b0, b1, b2, b3⟩
  simp only [counterValid] at h
  rw [show (2:Nat) ^ 32 = 4294967296 from by norm_num]
  simp only [incCounterM]
  split_ifs <;> simp only [counterVal] <;> omega

theorem cekLoop_counter (digest : List Nat → List Nat) (input : List Nat) :
    ∀ b c, counterValid c →
      counterValid (cekLoop digest input b c).2 ∧
      counterVal (cekLoop digest input b c).2 = (counterVal c + b) % 2 ^ 32 := by
  intro b
  induction b with
  | zero =>
    intro c hc
    refine ⟨hc, ?_⟩
    rw [Nat.add_zero, Nat.mod_eq_of_lt (counterVal_lt hc)]
    rfl
  | succ b ih =>
    intro c hc
    have hrec := ih (incCounterM c) (incCounterM_valid hc)
    refine ⟨hrec.1, ?_⟩
    calc counterVal (cekLoop digest input (b + 1) c).2
        = counterVal (cekLoop digest input b (incCounterM c)).2 := rfl
    _ = (counterVal (incCounterM c) + b) % 2 ^ 32 := hrec.2
    _ = ((counterVal c + 1) % 2 ^ 32 + b) % 2 ^ 32 := by rw [incCounterM_val hc]
    _ = (counterVal c + 1 + b) % 2 ^ 32 := Nat.mod_add_mod _ _ _
    _ = (counterVal c + (b + 1)) % 2 ^ 32 := by ring_nf

/-- Inversion of a successful CEK call: the key-length and hash-size guards
passed, the key is the truncated block concatenation, and the new state is
the old one with the counter advanced by the loop. -/
theorem cekM_ok {hSize : Nat} {digest : List Nat → List Nat} {s0 : KEKState}
    {k : List Nat} {s1 : KEKState}
    (h : cekM hSize digest s0 = GoResult.ok (k, s1)) :
    keyLenM s0.supp ≠ 0 ∧ hSize ≠ 0 ∧
    k = ((cekLoop digest (hashInput s0)
          ((keyLenM s0.supp + hSize - 1) / hSize) s0.counter).1).take (keyLenM s0.supp) ∧
    s1 = { s0 with
           counter := (cekLoop digest (hashInput s0)
             ((keyLenM s0.supp + hSize - 1) / hSize) s0.counter).2 } := by
  by_cases hkl : keyLenM s0.supp = 0
  · simp [cekM, hkl] at h
  · by_cases hs0 : hSize = 0
    · simp [cekM, hkl, hs0] at h
    · simp only [cekM, if_neg hkl, if_neg hs0, GoResult.ok.injEq, Prod.mk.injEq] at h
      exact ⟨hkl, hs0, h.1.symm, h.2.symm⟩

theorem cekLoop_fst_take (digest : List Nat → List Nat) (input : List Nat)
    (b : Nat) (c : Counter) (kl hSize : Nat)
    (hb : 0 < b) (hdl : (digest input).length = hSize) :
    (((cekLoop digest input b c).1).take kl).take (min kl hSize) =
      (digest input).take (min kl hSize) := by
  obtain ⟨b1, rfl⟩ : ∃ b1, b = b1 + 1 := ⟨b - 1, by omega⟩
  have hstep : (cekLoop digest input (b1 + 1) c).1 =
      digest input ++ (cekLoop digest input b1 (incCounterM c)).1 := rfl
  rw [hstep, List.take_take, List.take_append_of_le_length]
  · congr 1
    omega
  · rw [hdl]
    omega

theorem sharedKeyI_congr (x1 x2 p1 p2 r1 r2 : Nat) (size : Int)
    (hp : validPub p1 = validPub p2)
    (hv : blindVal p1 x1 r1 = blindVal p2 x2 r2) :
    sharedKeyI x1 p1 r1 size = sharedKeyI x2 p2 r2 size := by
  unfold sharedKeyI
  rw [blindGo_eq, blindGo_eq, hv, hp]

/-- C1 counterexample: at base a = 2 (the generator), exponent x = 1 and
random draw r = 0, blind does not return a ^ x mod P. -/
theorem blind_not_plain_pow : blindGo 2 1 0 ≠ GoResult.ok (2 ^ 1 % P) := by decide

/-- C1 (amended): for every base a, exponent x and random draw r, blind
succeeds and returns a ^ (2 ^ 258 + x) mod P: the two partial exponents
sum to 2 ^ 258 + x, not to x, so the product of the partial results is
a ^ (2 ^ 258 + x) mod P. -/
theorem blind_offset_pow (a x r : Nat) (hr : r < 2 ^ 256) :
    blindGo a x r = GoResult.ok (a ^ (2 ^ 258 + x) % P) := by
  rw [blindGo_eq, blindVal_eq_pow a x r hr]

theorem blind_offset_pow_witness :
    blindGo 2 1 0 = GoResult.ok (2 ^ (2 ^ 258 + 1) % P) :=
  blind_offset_pow 2 1 0 (by decide)

/-- C2: for any two key pairs whose public elements were produced by the
blinded generator exponentiation (as GenerateKey does), shared keys
computed from either side agree byte for byte whenever both calls return
normally, for any requested size and any random draws. -/
theorem sharedKey_symmetric (xA xB rA rB rGA rGB n : Nat) (s1 s2 : List Nat)
    (hrA : rA < 2 ^ 256) (hrB : rB < 2 ^ 256)
    (hrGA : rGA < 2 ^ 256) (hrGB : rGB < 2 ^ 256)
    (h1 : sharedKeyM xA (blindVal g xB rGB) rA n = GoResult.ok s1)
    (h2 : sharedKeyM xB (blindVal g xA rGA) rB n = GoResult.ok s2) :
    s1 = s2 := by
  have hv : blindVal (blindVal g xB rGB) xA rA = blindVal (blindVal g xA rGA) xB rB := by
    rw [blindVal_blindVal xA xB rA rGB hrA hrGB, blindVal_blindVal xB xA rB rGA hrB hrGA,
      Nat.mul_comm]
  have hp : validPub (blindVal g xB rGB) = validPub (blindVal g xA rGA) := by
    rw [validPub_of_lt (blindVal_lt g xB rGB), validPub_of_lt (blindVal_lt g xA rGA)]
  have heq : sharedKeyM xA (blindVal g xB rGB) rA n = sharedKeyM xB (blindVal g xA rGA) rB n :=
    sharedKeyI_congr xA xB _ _ rA rB (n : Int) hp hv
  have hok : GoResult.ok s1 = GoResult.ok s2 := h1.symm.trans (heq.trans h2)
  exact (GoResult.ok.injEq _ _).mp hok

theorem sharedKey_symmetric_witness : ([190] : List Nat) = [190] :=
  sharedKey_symmetric 1 2 0 0 0 0 1 [190] [190]
    (by decide) (by decide) (by decide) (by decide) (by decide) (by decide)

/-- C3: when the blinded result has fewer big-endian bytes than the
requested size (any private key and valid peer key with size 257 > 256,
the byte width of the modulus), SharedKey panics on the out-of-range
reslice instead of returning ErrInvalidSharedKey; the length check after
the reslice is unreachable. -/
theorem sharedKey_short_result_panics : sharedKeyM 1 2 0 257 = GoResult.crash := by
  decide

/-- C4: a CEK derivation longer than one hash block hashes the same
paddedSecret-and-otherInfo string for every block (otherInfo is serialized
once, before the loop), so the 96-byte key from a 64-byte digest consists
of the first block repeated: bytes 64..95 equal bytes 0..31. -/
theorem cek_blocks_repeat_within_call :
    isOk (cekM 64 exampleDigest64 exampleKEK96) = true ∧
    (keyOf (cekM 64 exampleDigest64 exampleKEK96)).length = 96 ∧
    (keyOf (cekM 64 exampleDigest64 exampleKEK96)).drop 64 =
      (keyOf (cekM 64 exampleDigest64 exampleKEK96)).take 32 :=
  ⟨by decide, by decide, by decide⟩

/-- C6 counterexample: a successful 96-byte derivation with a 64-byte hash
leaves the counter at 3, not at the by-one increment 2 of its starting
value 1. -/
theorem cek_counter_increment_not_one :
    counterOf (cekM 64 exampleDigest64 exampleKEK96) = some ⟨0, 0, 0, 3⟩ ∧
    counterVal ⟨0, 0, 0, 3⟩ ≠ (counterVal ⟨0, 0, 0, 1⟩ + 1) % 2 ^ 32 :=
  ⟨by decide, by decide⟩

/-- C6 (amended): every successful CEK call advances the 4-byte big-endian
counter by ceil(keylen / hashSize) modulo 2 ^ 32 - one increment per hash
block, which is one exactly when the target length fits in one block. -/
theorem cek_counter_advances_by_blocks (hSize : Nat) (digest : List Nat → List Nat)
    (s0 s1 : KEKState) (k : List Nat) (hc : counterValid s0.counter)
    (h : cekM hSize digest s0 = GoResult.ok (k, s1)) :
    counterVal s1.counter =
      (counterVal s0.counter + (keyLenM s0.supp + hSize - 1) / hSize) % 2 ^ 32 := by
  obtain ⟨hkl, hs0, hk, hs1⟩ := cekM_ok h
  rw [hs1]
  exact (cekLoop_counter digest (hashInput s0) _ s0.counter hc).2

theorem cek_counter_advances_by_blocks_witness :
    counterVal (Counter.mk 0 0 0 3) =
      (counterVal (Counter.mk 0 0 0 1) + (keyLenM [0, 0, 0, 2] + 1 - 1) / 1) % 2 ^ 32 :=
  cek_counter_advances_by_blocks 1 exampleDigest1 exampleKEK2
    { zz := [5], algo := [1], ainfo := none, supp := [0, 0, 0, 2],
      counter := ⟨0, 0, 0, 3⟩ }
    [14, 14] (by decide) (by decide)

/-- C7: zeroPad places the input one byte short of the right edge: padding
the byte 0xAB to width 2 yields AB 00, not the right-aligned 00 AB that
both the spec and the function's own comment describe. -/
theorem zeroPad_trailing_zero :
    zeroPadGo [171] 2 = some [171, 0] ∧ some [171, 0] ≠ some ([0, 171] : List Nat) :=
  ⟨by decide, by decide⟩

/-- C9 counterexample: byte strings that parse to zero import successfully
as the public element 0; ImportPublic does not return ErrInvalidPublicKey
on them. -/
theorem importPublic_zero_accepted :
    importPublicM [] = GoResult.ok 0 ∧
    importPublicM [0, 0, 0] ≠ GoResult.err DhkamErr.invalidPublicKey :=
  ⟨by decide, by decide⟩

/-- C9 (amended): public-key validation checks only the bit-length bound:
ImportPublic accepts any input whose parsed value has bit length at most
that of P - including zero - and rejects exactly the rest. -/
theorem importPublic_checks_only_bitLen (inp : List Nat) :
    importPublicM inp =
      if bitLen (bytesToNat inp) ≤ bitLen P then GoResult.ok (bytesToNat inp)
      else GoResult.err DhkamErr.invalidPublicKey := by
  unfold importPublicM validPub
  by_cases h : bitLen P < bitLen (bytesToNat inp)
  · rw [if_pos h, if_neg (show ¬ bitLen (bytesToNat inp) ≤ bitLen P by omega)]
    simp
  · rw [if_neg h, if_pos (show bitLen (bytesToNat inp) ≤ bitLen P by omega)]
    simp

/-- C10: zeroPad is not total: whenever the input is at least as long as
the requested width the slice lower bound becomes -1 and the function
panics; and this is reachable from InitializeKEK with a key-length field
of 256 (the modulus byte width) and a shared secret filling that width. -/
theorem zeroPad_panics_on_wide_input :
    (∀ (inp : List Nat) (outlen : Nat), outlen ≤ inp.length → zeroPadGo inp outlen = none) ∧
    initializeKEKM 1 2 [42] none [0, 0, 1, 0] 0 = GoResult.crash := by
  constructor
  · intro inp outlen h
    simp only [zeroPadGo]
    rw [Nat.min_eq_right h]
    rw [if_pos (show (outlen : Int) - (outlen : Int) - 1 < 0 by omega)]
  · decide

theorem zeroPad_panics_on_wide_input_witness : zeroPadGo [7] 1 = none :=
  zeroPad_panics_on_wide_input.1 [7] 1 (by decide)

/-- C8: importing the exported bytes of a generated private key succeeds
and reproduces both the secret exponent and the public element, whatever
random draws were used at generation and at import time (the blinded
regeneration does not depend on the draw). -/
theorem importPrivate_export_roundtrip (X r1 r2 : Nat) (hX : 0 < X) (hXP : X ≤ P - 1)
    (hr1 : r1 < 2 ^ 256) (hr2 : r2 < 2 ^ 256) :
    importPrivateM r2 (exportPrivateM { X := X, A := blindVal g X r1 }) =
      GoResult.ok { X := X, A := blindVal g X r1 } := by
  simp only [exportPrivateM, importPrivateM, generatePublicKeyM, bytesToNat_natToBytes,
    blindGo_eq]
  rw [validPub_of_lt (blindVal_lt g X r2)]
  simp only [if_true]
  rw [blindVal_eq_pow g X r2 hr2, ← blindVal_eq_pow g X r1 hr1]

theorem importPrivate_export_roundtrip_witness :
    importPrivateM 5 (exportPrivateM { X := 1, A := blindVal g 1 0 }) =
      GoResult.ok { X := 1, A := blindVal g 1 0 } :=
  importPrivate_export_roundtrip 1 0 5 (by decide) (by decide) (by decide) (by decide)

/-- The take of a successful CEK key at the first-block width equals the
take of the digest of the call's single hashed input. -/
theorem cekM_first_block (hSize : Nat) (digest : List Nat → List Nat)
    (s : KEKState) (k : List Nat) (s1 : KEKState)
    (hdl : (digest (hashInput s)).length = hSize)
    (h : cekM hSize digest s = GoResult.ok (k, s1)) :
    k.take (min (keyLenM s.supp) hSize) =
      (digest (hashInput s)).take (min (keyLenM s.supp) hSize) := by
  obtain ⟨hkl, hs, hk, _⟩ := cekM_ok h
  have hnb1 : 0 < (keyLenM s.supp + hSize - 1) / hSize :=
    Nat.div_pos (by omega) (by omega)
  rw [hk]
  exact cekLoop_fst_take digest (hashInput s) _ s.counter (keyLenM s.supp) hSize hnb1 hdl

/-- A successful CEK call keeps every KEK field except the counter, which
advances by the block count modulo 2 ^ 32 and stays in byte range. -/
theorem cekM_state (hSize : Nat) (digest : List Nat → List Nat)
    (s : KEKState) (k : List Nat) (s1 : KEKState)
    (hc : counterValid s.counter)
    (h : cekM hSize digest s = GoResult.ok (k, s1)) :
    s1.zz = s.zz ∧ s1.algo = s.algo ∧ s1.ainfo = s.ainfo ∧ s1.supp = s.supp ∧
    counterValid s1.counter ∧
    keyLenM s.supp ≠ 0 ∧ hSize ≠ 0 ∧
    counterVal s1.counter =
      (counterVal s.counter + (keyLenM s.supp + hSize - 1) / hSize) % 2 ^ 32 := by
  obtain ⟨hkl, hs, hk, hs1⟩ := cekM_ok h
  subst hs1
  have hcnt := cekLoop_counter digest (hashInput s)
    ((keyLenM s.supp + hSize - 1) / hSize) s.counter hc
  exact ⟨rfl, rfl, rfl, rfl, hcnt.1, hkl, hs, hcnt.2⟩

/-- C5: two successive successful CEK calls on the same KEK derive
distinct keys: the second call serializes the advanced counter into its
otherInfo bytes, so the two calls hash different inputs, and any digest
that does not collide on this KEK's counter-indexed input family keeps
the derived keys apart. -/
theorem cek_successive_calls_distinct
    (hSize : Nat) (digest : List Nat → List Nat) (s0 s1 s2 : KEKState)
    (k1 k2 : List Nat)
    (hc : counterValid s0.counter)
    (hdl : ∀ m, (digest m).length = hSize)
    (hnb : (keyLenM s0.supp + hSize - 1) / hSize < 2 ^ 32)
    (hinj : ∀ cA cB, counterValid cA → counterValid cB →
      (digest (s0.zz ++ marshalParamsM s0.algo s0.ainfo s0.supp cA)).take
          (min (keyLenM s0.supp) hSize) =
        (digest (s0.zz ++ marshalParamsM s0.algo s0.ainfo s0.supp cB)).take
          (min (keyLenM s0.supp) hSize) →
      cA = cB)
    (h1 : cekM hSize digest s0 = GoResult.ok (k1, s1))
    (h2 : cekM hSize digest s1 = GoResult.ok (k2, s2)) :
    k1 ≠ k2 := by
  intro hkk
  have hd1 := cekM_first_block hSize digest s0 k1 s1 (hdl _) h1
  have hd2 := cekM_first_block hSize digest s1 k2 s2 (hdl _) h2
  obtain ⟨hzz, halgo, hainfo, hsupp, hval1, hkl, hs, hcval⟩ :=
    cekM_state hSize digest s0 k1 s1 hc h1
  rw [hkk] at hd1
  rw [hsupp] at hd2
  simp only [hashInput] at hd1 hd2
  rw [hzz, halgo, hainfo, hsupp] at hd2
  have hpref := hd1.symm.trans hd2
  have hceq : s0.counter = s1.counter := hinj s0.counter s1.counter hc hval1 hpref
  have hlt := counterVal_lt hc
  have hval : counterVal s0.counter = counterVal s1.counter := by rw [hceq]
  rw [hcval] at hval
  have h32 : (2:Nat) ^ 32 = 4294967296 := by norm_num
  rw [h32] at hval hnb hlt
  have hnb1 : 0 < (keyLenM s0.supp + hSize - 1) / hSize :=
    Nat.div_pos (by omega) (by omega)
  omega

theorem cek_successive_calls_distinct_witness :
    ([0, 0, 0, 1] : List Nat) ≠ [0, 0, 0, 2] :=
  cek_successive_calls_distinct 4 exampleDigest4 exampleKEK4
    { zz := [9], algo := [1], ainfo := none, supp := [0, 0, 0, 4], counter := ⟨0, 0, 0, 2⟩ }
    { zz := [9], algo := [1], ainfo := none, supp := [0, 0, 0, 4], counter := ⟨0, 0, 0, 3⟩ }
    [0, 0, 0, 1] [0, 0, 0, 2]
    (by decide)
    (by
      intro m
      simp only [exampleDigest4, List.length_drop, List.length_append,
        List.length_replicate]
      omega)
    (by decide)
    (by
      intro cA cB hA hB heq
      rcases cA with ⟨a0, a1, a2, a3⟩
      rcases cB with ⟨b0, b1, b2, b3⟩
      have heqL : ([a0, a1, a2, a3] : List Nat) = [b0, b1, b2, b3] := heq
      injection heqL with e0 heqL
      injection heqL with e1 heqL
      injection heqL with e2 heqL
      injection heqL with e3
      rw [e0, e1, e2, e3])
    (by decide) (by decide)

end Dhkam
